import Mathlib

/-!
# Verification of the `BreitWignerGenerator` module (MoMEMta)

Shallow embedding of `src/modules/BreitWignerGenerator.cc` over the real
numbers, together with proofs of the specified properties of the module.

The module stores two parameters `mass` and `width` (configured as `double`,
stored as `float` members), and its `work()` method transforms one uniform
phase-space point `ps_point` into an invariant-mass-squared sample `s` and
the Jacobian of the transformation, writing both into pool-owned slots.
-/

open Real

/-- The `BreitWignerGenerator` module state: the two immutable parameters
stored at construction (`const float mass; const float width;` in the
source).  Arithmetic on them in `work()` is embedded over `ℝ`. -/
structure BreitWignerGenerator where
  mass : ℝ
  width : ℝ

namespace BreitWignerGenerator

/-- `const double range = M_PI / 2. + std::atan(mass / width);` -/
noncomputable def range (g : BreitWignerGenerator) : ℝ :=
  Real.pi / 2 + Real.arctan (g.mass / g.width)

/-- `const double y = - std::atan(mass / width) + range * psPoint;` -/
noncomputable def y (g : BreitWignerGenerator) (psPoint : ℝ) : ℝ :=
  - Real.arctan (g.mass / g.width) + g.range * psPoint

/-- The body of `BreitWignerGenerator::work()`: given the phase-space point,
compute the pair written to the output slots,
`*s = mass * width * std::tan(y) + (mass * mass);`
`*jacobian = range * mass * width / (std::cos(y) * std::cos(y));`. -/
noncomputable def work (g : BreitWignerGenerator) (psPoint : ℝ) : ℝ × ℝ :=
  (g.mass * g.width * Real.tan (g.y psPoint) + g.mass * g.mass,
   g.range * g.mass * g.width / (Real.cos (g.y psPoint) * Real.cos (g.y psPoint)))

/-- `virtual size_t dimensions() const override { return 1; }` -/
def dimensions (_ : BreitWignerGenerator) : ℕ := 1

/-- A call of `work()` as an update of the pool-owned output slots
`(s, jacobian)`: the body reads only the phase-space point and the stored
parameters, never the previous contents of the slots, so the update is the
pure result of `work`. -/
noncomputable def workWrite (g : BreitWignerGenerator) (psPoint : ℝ)
    (_slots : ℝ × ℝ) : ℝ × ℝ :=
  g.work psPoint

end BreitWignerGenerator

/-- Reference evaluation following the specification's four steps verbatim:
`range = π/2 + atan(mass/width)`, `y = -atan(mass/width) + range * x`,
`s = mass * width * tan(y) + mass²`, `jacobian = range * mass * width / cos(y)²`. -/
noncomputable def spec_evaluate (mass width x : ℝ) : ℝ × ℝ :=
  let range := Real.pi / 2 + Real.arctan (mass / width)
  let y := - Real.arctan (mass / width) + range * x
  (mass * width * Real.tan y + mass ^ 2,
   range * mass * width / Real.cos y ^ 2)

/-- **C1.** For every mass, width and sample `x`, `work` computes its two
outputs by exactly the four specified steps: the embedded work function
equals the reference definition transcribed from the specification. -/
theorem work_eq_spec_evaluate (mass width x : ℝ) :
    BreitWignerGenerator.work ⟨mass, width⟩ x = spec_evaluate mass width x := by
  simp only [BreitWignerGenerator.work, BreitWignerGenerator.y,
    BreitWignerGenerator.range, spec_evaluate, Prod.mk.injEq]
  constructor <;> ring

/-- **C2.** `dimensions()` always returns 1, for every module instance and
independently of the mass and width values it was constructed with. -/
theorem dimensions_eq_one (g : BreitWignerGenerator) : g.dimensions = 1 :=
  rfl

/-- With positive parameters, `atan(mass/width)` lies in `(0, π/2)`. -/
lemma arctan_ratio_mem (g : BreitWignerGenerator) (hm : 0 < g.mass)
    (hw : 0 < g.width) :
    0 < Real.arctan (g.mass / g.width) ∧
      Real.arctan (g.mass / g.width) < Real.pi / 2 := by
  refine ⟨?_, Real.arctan_lt_pi_div_two _⟩
  rw [← Real.arctan_zero]
  exact Real.arctan_strictMono (div_pos hm hw)

/-- With positive parameters, `range = π/2 + atan(mass/width)` is positive. -/
lemma range_pos (g : BreitWignerGenerator) (hm : 0 < g.mass) (hw : 0 < g.width) :
    0 < g.range := by
  have h := (arctan_ratio_mem g hm hw).1
  unfold BreitWignerGenerator.range
  linarith [Real.pi_pos]

/-- For `x ∈ [0,1)` and positive parameters, the intermediate angle `y(x)`
stays strictly inside `(-π/2, π/2)`. -/
lemma y_mem_Ioo (g : BreitWignerGenerator) (hm : 0 < g.mass) (hw : 0 < g.width)
    {x : ℝ} (hx0 : 0 ≤ x) (hx1 : x < 1) :
    g.y x ∈ Set.Ioo (-(Real.pi / 2)) (Real.pi / 2) := by
  obtain ⟨ha0, ha2⟩ := arctan_ratio_mem g hm hw
  have hr := range_pos g hm hw
  have hrx0 : 0 ≤ g.range * x := mul_nonneg hr.le hx0
  have hrx1 : g.range * x < g.range := by
    simpa using mul_lt_mul_of_pos_left hx1 hr
  unfold BreitWignerGenerator.y
  constructor
  · linarith
  · unfold BreitWignerGenerator.range at hrx1 ⊢
    linarith

/-- For `x ∈ [0,1)` and positive parameters, `cos (y x)` is positive. -/
lemma cos_y_pos (g : BreitWignerGenerator) (hm : 0 < g.mass) (hw : 0 < g.width)
    {x : ℝ} (hx0 : 0 ≤ x) (hx1 : x < 1) :
    0 < Real.cos (g.y x) :=
  Real.cos_pos_of_mem_Ioo (y_mem_Ioo g hm hw hx0 hx1)

/-- **C3.** For every `mass > 0`, `width > 0` and sample `x ∈ [0,1)`, the
jacobian output of `work` is strictly positive, and the `s` output is finite:
the angle `y` satisfies `cos (y x) ≠ 0`, so `tan (y x)` — and with it `s` —
is the value of an ordinary finite real expression, not a pole. -/
theorem jacobian_pos_s_finite (mass width x : ℝ) (hm : 0 < mass)
    (hw : 0 < width) (hx0 : 0 ≤ x) (hx1 : x < 1) :
    0 < (BreitWignerGenerator.work ⟨mass, width⟩ x).2 ∧
      Real.cos (BreitWignerGenerator.y ⟨mass, width⟩ x) ≠ 0 := by
  set g : BreitWignerGenerator := ⟨mass, width⟩ with hg
  have hm' : 0 < g.mass := hm
  have hw' : 0 < g.width := hw
  have hc := cos_y_pos g hm' hw' hx0 hx1
  have hr := range_pos g hm' hw'
  refine ⟨?_, hc.ne'⟩
  show 0 < g.range * g.mass * g.width / (Real.cos (g.y x) * Real.cos (g.y x))
  exact div_pos (mul_pos (mul_pos hr hm') hw') (mul_pos hc hc)

/-- Witness for C3 at `mass = 1`, `width = 1`, `x = 0`. -/
theorem jacobian_pos_s_finite_witness :
    (0:ℝ) < 1 ∧ (0:ℝ) ≤ 0 ∧ (0:ℝ) < 1 ∧
      (0 < (BreitWignerGenerator.work ⟨1, 1⟩ 0).2 ∧
        Real.cos (BreitWignerGenerator.y ⟨1, 1⟩ 0) ≠ 0) :=
  ⟨by norm_num, le_refl 0, by norm_num,
    jacobian_pos_s_finite 1 1 0 (by norm_num) (by norm_num) (le_refl 0)
      (by norm_num)⟩

/-- **C4.** For fixed `mass > 0` and `width > 0`, the `s` output of `work`
is strictly increasing in the sample over `[0,1)`: `x1 < x2` in `[0,1)`
implies `s(x1) < s(x2)`. -/
theorem s_strictMono (mass width x1 x2 : ℝ) (hm : 0 < mass) (hw : 0 < width)
    (h1 : 0 ≤ x1) (h12 : x1 < x2) (h2 : x2 < 1) :
    (BreitWignerGenerator.work ⟨mass, width⟩ x1).1 <
      (BreitWignerGenerator.work ⟨mass, width⟩ x2).1 := by
  set g : BreitWignerGenerator := ⟨mass, width⟩ with hg
  have hm' : 0 < g.mass := hm
  have hw' : 0 < g.width := hw
  have hy1 := y_mem_Ioo g hm' hw' h1 (h12.trans h2)
  have hy2 := y_mem_Ioo g hm' hw' (h1.trans h12.le) h2
  have hylt : g.y x1 < g.y x2 := by
    have := mul_lt_mul_of_pos_left h12 (range_pos g hm' hw')
    unfold BreitWignerGenerator.y
    linarith
  have htan : Real.tan (g.y x1) < Real.tan (g.y x2) :=
    Real.tan_lt_tan_of_lt_of_lt_pi_div_two hy1.1 hy2.2 hylt
  show g.mass * g.width * Real.tan (g.y x1) + g.mass * g.mass <
    g.mass * g.width * Real.tan (g.y x2) + g.mass * g.mass
  have := mul_lt_mul_of_pos_left htan (mul_pos hm' hw')
  linarith

/-- Witness for C4 at `mass = 1`, `width = 1`, `x1 = 0`, `x2 = 1/2`. -/
theorem s_strictMono_witness :
    (0:ℝ) < 1 ∧ (0:ℝ) ≤ 0 ∧ (0:ℝ) < 1/2 ∧ (1:ℝ)/2 < 1 ∧
      (BreitWignerGenerator.work ⟨1, 1⟩ 0).1 <
        (BreitWignerGenerator.work ⟨1, 1⟩ (1/2)).1 :=
  ⟨by norm_num, le_refl 0, by norm_num, by norm_num,
    s_strictMono 1 1 0 (1/2) (by norm_num) (by norm_num) (le_refl 0)
      (by norm_num) (by norm_num)⟩

/-- **C5.** For every `mass > 0`, `width > 0` and `x ∈ [0,1)`, the jacobian
output of `work` equals the analytic derivative `ds/dx` of the `s` output,
exactly, over the reals. -/
theorem jacobian_eq_deriv (mass width x : ℝ) (hm : 0 < mass) (hw : 0 < width)
    (hx0 : 0 ≤ x) (hx1 : x < 1) :
    HasDerivAt (fun t => (BreitWignerGenerator.work ⟨mass, width⟩ t).1)
      ((BreitWignerGenerator.work ⟨mass, width⟩ x).2) x := by
  set g : BreitWignerGenerator := ⟨mass, width⟩ with hg
  have hm' : 0 < g.mass := hm
  have hw' : 0 < g.width := hw
  have hc := cos_y_pos g hm' hw' hx0 hx1
  have hy : HasDerivAt (fun t : ℝ => g.y t) g.range x := by
    have h0 : HasDerivAt (fun t : ℝ =>
        -Real.arctan (g.mass / g.width) + g.range * t) (g.range * 1) x :=
      ((hasDerivAt_id x).const_mul g.range).const_add _
    simpa [BreitWignerGenerator.y] using h0
  have htan : HasDerivAt Real.tan (1 / Real.cos (g.y x) ^ 2) (g.y x) :=
    Real.hasDerivAt_tan hc.ne'
  have hkey : HasDerivAt
      (fun t => g.mass * g.width * Real.tan (g.y t) + g.mass * g.mass)
      (g.mass * g.width * (1 / Real.cos (g.y x) ^ 2 * g.range)) x :=
    (((htan.comp x hy).const_mul (g.mass * g.width)).add_const (g.mass * g.mass))
  have hval : (BreitWignerGenerator.work g x).2 =
      g.mass * g.width * (1 / Real.cos (g.y x) ^ 2 * g.range) := by
    show g.range * g.mass * g.width /
      (Real.cos (g.y x) * Real.cos (g.y x)) = _
    field_simp
    ring
  rw [hval]
  exact hkey

/-- Witness for C5 at `mass = 1`, `width = 1`, `x = 0`. -/
theorem jacobian_eq_deriv_witness :
    (0:ℝ) < 1 ∧ (0:ℝ) ≤ 0 ∧ (0:ℝ) < 1 ∧
      HasDerivAt (fun t => (BreitWignerGenerator.work ⟨1, 1⟩ t).1)
        ((BreitWignerGenerator.work ⟨1, 1⟩ 0).2) 0 :=
  ⟨by norm_num, le_refl 0, by norm_num,
    jacobian_eq_deriv 1 1 0 (by norm_num) (by norm_num) (le_refl 0)
      (by norm_num)⟩

/-- **C6.** For every `mass > 0` and `width > 0`, evaluating at `x = 0`
yields `s = 0` exactly: `y(0) = -atan(mass/width)`, so
`s = mass² - mass·width·(mass/width) = 0`. -/
theorem s_at_zero (mass width : ℝ) (hm : 0 < mass) (hw : 0 < width) :
    (BreitWignerGenerator.work ⟨mass, width⟩ 0).1 = 0 := by
  set g : BreitWignerGenerator := ⟨mass, width⟩ with hg
  have hy0 : g.y 0 = -Real.arctan (g.mass / g.width) := by
    unfold BreitWignerGenerator.y
    ring
  show g.mass * g.width * Real.tan (g.y 0) + g.mass * g.mass = 0
  rw [hy0, Real.tan_neg, Real.tan_arctan]
  field_simp
  ring

/-- Witness for C6 at `mass = 1`, `width = 1`. -/
theorem s_at_zero_witness :
    (0:ℝ) < 1 ∧ (BreitWignerGenerator.work ⟨1, 1⟩ 0).1 = 0 :=
  ⟨by norm_num, s_at_zero 1 1 (by norm_num) (by norm_num)⟩

/-- Two-sided rational bounds on `√2`, tight enough for the midpoint claim. -/
lemma sqrt_two_bounds : (1.41421356:ℝ) < Real.sqrt 2 ∧
    Real.sqrt 2 < 1.41421357 := by
  have h := Real.sq_sqrt (show (0:ℝ) ≤ 2 by norm_num)
  have h0 := Real.sqrt_nonneg 2
  constructor <;> nlinarith

/-- Closed form of `tan (π/8)`. -/
lemma tan_pi_div_eight_eq : Real.tan (Real.pi / 8) = Real.sqrt 2 - 1 := by
  have hs : Real.sqrt 2 ^ 2 = 2 := Real.sq_sqrt (by norm_num)
  have h0 := Real.sqrt_nonneg 2
  have hs1 : 1 ≤ Real.sqrt 2 := by nlinarith
  have hp : (0:ℝ) ≤ 2 + Real.sqrt 2 := by linarith
  have hcpos : 0 < Real.sqrt (2 + Real.sqrt 2) :=
    Real.sqrt_pos.mpr (by linarith)
  have key : Real.sqrt (2 - Real.sqrt 2) =
      (Real.sqrt 2 - 1) * Real.sqrt (2 + Real.sqrt 2) := by
    have hsq : ((Real.sqrt 2 - 1) * Real.sqrt (2 + Real.sqrt 2)) ^ 2 =
        2 - Real.sqrt 2 := by
      rw [mul_pow, Real.sq_sqrt hp]
      nlinarith
    have hnn : 0 ≤ (Real.sqrt 2 - 1) * Real.sqrt (2 + Real.sqrt 2) :=
      mul_nonneg (by linarith) hcpos.le
    rw [← hsq, Real.sqrt_sq hnn]
  rw [Real.tan_eq_sin_div_cos, Real.sin_pi_div_eight, Real.cos_pi_div_eight,
    key]
  field_simp

/-- Closed form of `cos (π/8) * cos (π/8)`. -/
lemma cos_sq_pi_div_eight : Real.cos (Real.pi / 8) * Real.cos (Real.pi / 8) =
    (2 + Real.sqrt 2) / 4 := by
  have h0 := Real.sqrt_nonneg 2
  have hp : (0:ℝ) ≤ 2 + Real.sqrt 2 := by linarith
  rw [Real.cos_pi_div_eight, div_mul_div_comm, Real.mul_self_sqrt hp]
  norm_num

/-- At `mass = 1`, `width = 1`, `x = 1/2` the intermediate angle is `π/8`. -/
lemma y_one_one_half : BreitWignerGenerator.y ⟨1, 1⟩ (1/2) = Real.pi / 8 := by
  unfold BreitWignerGenerator.y BreitWignerGenerator.range
  norm_num [Real.arctan_one]
  ring

/-- At `mass = 1`, `width = 1`, `x = 1/2` the `s` output is exactly `√2`. -/
lemma s_one_one_half :
    (BreitWignerGenerator.work ⟨1, 1⟩ (1/2)).1 = Real.sqrt 2 := by
  show (1:ℝ) * 1 * Real.tan (BreitWignerGenerator.y ⟨1, 1⟩ (1/2)) + 1 * 1 = _
  rw [y_one_one_half, tan_pi_div_eight_eq]
  ring

/-- At `mass = 1`, `width = 1`, `x = 1/2` the jacobian output is exactly
`3π/(2 + √2)`. -/
lemma jacobian_one_one_half :
    (BreitWignerGenerator.work ⟨1, 1⟩ (1/2)).2 =
      3 * Real.pi / (2 + Real.sqrt 2) := by
  have h0 := Real.sqrt_nonneg 2
  have hp : (0:ℝ) < 2 + Real.sqrt 2 := by linarith
  show BreitWignerGenerator.range ⟨1, 1⟩ * 1 * 1 /
      (Real.cos (BreitWignerGenerator.y ⟨1, 1⟩ (1/2)) *
        Real.cos (BreitWignerGenerator.y ⟨1, 1⟩ (1/2))) = _
  rw [y_one_one_half, cos_sq_pi_div_eight]
  unfold BreitWignerGenerator.range
  norm_num [Real.arctan_one]
  field_simp
  ring

/-- **C7 counterexample.** At `mass = 1`, `width = 1`, `x = 0.5` the
jacobian output is `3π/(2+√2) ≈ 2.760454`, which is NOT within `1e-5` of
the value `2.7603` stated in the claim. -/
theorem midpoint_jacobian_counterexample :
    ¬ |(BreitWignerGenerator.work ⟨1, 1⟩ (1/2)).2 - 2.7603| < 1e-5 := by
  rw [jacobian_one_one_half]
  intro h
  have h2 := (abs_lt.mp h).2
  have h0 := Real.sqrt_nonneg 2
  have hpos : (0:ℝ) < 2 + Real.sqrt 2 := by linarith
  have hj : 3 * Real.pi / (2 + Real.sqrt 2) < 2.76031 := by
    have : (1e-5 : ℝ) + 2.7603 = 2.76031 := by norm_num
    linarith
  rw [div_lt_iff₀ hpos] at hj
  nlinarith [Real.pi_gt_d6, sqrt_two_bounds.2]

/-- **C7 (amended).** For `mass = 1`, `width = 1`, `x = 0.5`, `work` returns
`s = √2 ≈ 1.41421` and `jacobian = 3π/(2+√2) ≈ 2.76045`, each to within
tolerance `1e-5` (the claim's value `2.7603` for the jacobian is off by
about `1.5e-4`; the true value rounds to `2.76045`). -/
theorem midpoint_values :
    |(BreitWignerGenerator.work ⟨1, 1⟩ (1/2)).1 - 1.41421| < 1e-5 ∧
      |(BreitWignerGenerator.work ⟨1, 1⟩ (1/2)).2 - 2.76045| < 1e-5 := by
  rw [s_one_one_half, jacobian_one_one_half]
  have h0 := Real.sqrt_nonneg 2
  have hpos : (0:ℝ) < 2 + Real.sqrt 2 := by linarith
  obtain ⟨hsl, hsu⟩ := sqrt_two_bounds
  constructor
  · rw [abs_lt]
    constructor <;> nlinarith
  · rw [abs_lt]
    constructor
    · have hlow : (2.76044:ℝ) < 3 * Real.pi / (2 + Real.sqrt 2) := by
        rw [lt_div_iff₀ hpos]
        nlinarith [Real.pi_gt_d6]
      nlinarith
    · have hhigh : 3 * Real.pi / (2 + Real.sqrt 2) < (2.76046:ℝ) := by
        rw [div_lt_iff₀ hpos]
        nlinarith [Real.pi_lt_d6]
      nlinarith

/-- **C8.** The evaluation is deterministic and stateless across calls: the
slot update performed by `work()` does not depend on the previous contents
of the output slots, so evaluating twice with the same sample yields
identical results, and a call leaves nothing behind that can change a later
call's outcome. -/
theorem work_stateless (g : BreitWignerGenerator) (x : ℝ)
    (slots slots' : ℝ × ℝ) :
    g.workWrite x slots = g.workWrite x slots' ∧
      g.workWrite x (g.workWrite x slots) = g.workWrite x slots :=
  ⟨rfl, rfl⟩

/-- **C9.** `work()` performs no input validation and never signals an
error: for every parameter pair and every sample — including `width = 0`,
negative `mass` or `width`, and samples outside `[0,1)` — the same
unguarded formula produces the `(s, jacobian)` pair; in particular at the
out-of-range sample `x = 2` with `mass = width = 1` it still produces the
ordinary values `(2, 3π/2)`. -/
theorem work_total_no_validation :
    (∀ mass width x : ℝ, BreitWignerGenerator.work ⟨mass, width⟩ x =
      (mass * width * Real.tan (BreitWignerGenerator.y ⟨mass, width⟩ x) +
          mass * mass,
        BreitWignerGenerator.range ⟨mass, width⟩ * mass * width /
          (Real.cos (BreitWignerGenerator.y ⟨mass, width⟩ x) *
            Real.cos (BreitWignerGenerator.y ⟨mass, width⟩ x)))) ∧
      BreitWignerGenerator.work ⟨1, 1⟩ 2 = (2, 3 * Real.pi / 2) := by
  refine ⟨fun mass width x => rfl, ?_⟩
  have hy : BreitWignerGenerator.y ⟨1, 1⟩ 2 = Real.pi / 4 + Real.pi := by
    unfold BreitWignerGenerator.y BreitWignerGenerator.range
    norm_num [Real.arctan_one]
    ring
  have hrange : BreitWignerGenerator.range ⟨1, 1⟩ = 3 * Real.pi / 4 := by
    unfold BreitWignerGenerator.range
    norm_num [Real.arctan_one]
    ring
  have htan : Real.tan (BreitWignerGenerator.y ⟨1, 1⟩ 2) = 1 := by
    rw [hy, Real.tan_periodic (Real.pi / 4), Real.tan_pi_div_four]
  have hcos : Real.cos (BreitWignerGenerator.y ⟨1, 1⟩ 2) *
      Real.cos (BreitWignerGenerator.y ⟨1, 1⟩ 2) = 1 / 2 := by
    rw [hy, Real.cos_add_pi, Real.cos_pi_div_four, neg_mul_neg,
      div_mul_div_comm, Real.mul_self_sqrt (by norm_num : (0:ℝ) ≤ 2)]
    norm_num
  have hwk : BreitWignerGenerator.work ⟨1, 1⟩ 2 =
      ((1:ℝ) * 1 * Real.tan (BreitWignerGenerator.y ⟨1, 1⟩ 2) + 1 * 1,
        BreitWignerGenerator.range ⟨1, 1⟩ * 1 * 1 /
          (Real.cos (BreitWignerGenerator.y ⟨1, 1⟩ 2) *
            Real.cos (BreitWignerGenerator.y ⟨1, 1⟩ 2))) := rfl
  rw [hwk, htan, hcos, hrange]
  simp only [Prod.mk.injEq]
  constructor
  · norm_num
  · field_simp
    ring

/-- The set of real numbers exactly representable as finite IEEE-754
binary32 values — the `float` storage type of the `mass` and `width`
members: `M · 2^e` with an integer significand `|M| < 2²⁴` and exponent
`-149 ≤ e ≤ 104`. -/
def isBinary32 (v : ℝ) : Prop :=
  ∃ M e : ℤ, |M| < 2 ^ 24 ∧ -149 ≤ e ∧ e ≤ 104 ∧ v = (M : ℝ) * 2 ^ e

/-- The set of real numbers exactly representable as finite IEEE-754
binary64 values — the `double` type of the configured parameters:
`M · 2^e` with `|M| < 2⁵³` and `-1074 ≤ e ≤ 971`. -/
def isBinary64 (v : ℝ) : Prop :=
  ∃ M e : ℤ, |M| < 2 ^ 53 ∧ -1074 ≤ e ∧ e ≤ 971 ∧ v = (M : ℝ) * 2 ^ e

/-- A narrowing conversion from `double` to `float`: every value it
produces is a finite binary32 number.  (IEEE round-to-nearest has this
property on the range of interest; the argument below holds for any
conversion into binary32, whatever its rounding rule.) -/
def narrowsToBinary32 (narrow : ℝ → ℝ) : Prop :=
  ∀ v, isBinary32 (narrow v)

/-- Construction of the module: the member initializers
`mass(parameters.get<double>("mass")), width(parameters.get<double>("width"))`
store the configured doubles into `const float` members, applying the
double-to-float narrowing conversion to each. -/
def BreitWignerGenerator.construct (narrow : ℝ → ℝ) (mass width : ℝ) :
    BreitWignerGenerator :=
  ⟨narrow mass, narrow width⟩

/-- The binary64 value `1 + 2⁻³⁰` is not representable in binary32. -/
lemma not_isBinary32_one_add_small : ¬ isBinary32 (1 + (2:ℝ) ^ (-30 : ℤ)) := by
  rintro ⟨M, e, hM, -, -, hv⟩
  have h20 : (2:ℝ) ≠ 0 := by norm_num
  have hMr : (M:ℝ) < 2 ^ (24:ℤ) := by
    have h := (abs_lt.mp hM).2
    have h2 : ((M:ℤ):ℝ) < ((2 ^ 24 : ℤ) : ℝ) := by exact_mod_cast h
    have h3 : (((2:ℤ) ^ 24 : ℤ) : ℝ) = (2:ℝ) ^ (24:ℤ) := by
      push_cast
      norm_num
    rw [h3] at h2
    exact h2
  rcases le_or_lt 0 (e + 30) with hpos | hneg
  · obtain ⟨n, hn⟩ := Int.le.dest hpos
    rw [zero_add] at hn
    have h1 : (1 + (2:ℝ) ^ (-30 : ℤ)) * 2 ^ (30:ℤ) =
        (M:ℝ) * 2 ^ e * 2 ^ (30:ℤ) := by rw [← hv]
    rw [add_mul, one_mul, ← zpow_add₀ h20, mul_assoc, ← zpow_add₀ h20] at h1
    norm_num at h1
    rw [← hn, zpow_natCast] at h1
    have keyZ : M * 2 ^ n = 1073741825 := by exact_mod_cast h1.symm
    rcases Nat.eq_zero_or_pos n with h0 | hn1
    · subst h0
      rw [abs_lt] at hM
      norm_num at hM keyZ
      omega
    · have h2 : (2:ℤ) ∣ M * 2 ^ n :=
        Dvd.dvd.mul_left (dvd_pow_self 2 hn1.ne') M
      rw [keyZ] at h2
      norm_num at h2
  · have h2e : (0:ℝ) < (2:ℝ) ^ e := zpow_pos (by norm_num) e
    have hlt : (M:ℝ) * 2 ^ e < 2 ^ (24:ℤ) * 2 ^ e :=
      mul_lt_mul_of_pos_right hMr h2e
    rw [← zpow_add₀ h20] at hlt
    have hle : (2:ℝ) ^ (24 + e) ≤ 1 :=
      zpow_le_one_of_nonpos₀ (by norm_num) (by omega)
    have hsmall : (0:ℝ) < (2:ℝ) ^ (-30 : ℤ) := zpow_pos (by norm_num) _
    linarith [hv ▸ (lt_of_lt_of_le hlt hle)]

/-- The value `1 + 2⁻³⁰` is representable in binary64. -/
lemma isBinary64_one_add_small : isBinary64 (1 + (2:ℝ) ^ (-30 : ℤ)) := by
  refine ⟨2 ^ 30 + 1, -30, by norm_num, by norm_num, by norm_num, ?_⟩
  have h20 : (2:ℝ) ≠ 0 := by norm_num
  push_cast
  rw [show (1073741825:ℝ) = 2 ^ (30:ℤ) + 1 by norm_num, add_mul, one_mul,
    ← zpow_add₀ h20]
  norm_num

/-- **C10.** At construction the configured double-precision `mass` is
narrowed to single-precision before being stored, so evaluations use the
float-rounded value: for the binary64 value `m = 1 + 2⁻³⁰`, whatever
binary32 narrowing the conversion performs, the stored `mass` differs
from `m`. -/
theorem construct_narrows_mass (narrow : ℝ → ℝ) (width : ℝ)
    (h : narrowsToBinary32 narrow) :
    isBinary64 (1 + (2:ℝ) ^ (-30 : ℤ)) ∧
      (BreitWignerGenerator.construct narrow (1 + (2:ℝ) ^ (-30 : ℤ))
          width).mass ≠ 1 + (2:ℝ) ^ (-30 : ℤ) := by
  refine ⟨isBinary64_one_add_small, fun hc => not_isBinary32_one_add_small ?_⟩
  rw [← hc]
  exact h _

/-- Witness for C10: the constant-zero conversion maps into binary32. -/
theorem construct_narrows_mass_witness :
    narrowsToBinary32 (fun _ => (0:ℝ)) ∧
      (isBinary64 (1 + (2:ℝ) ^ (-30 : ℤ)) ∧
        (BreitWignerGenerator.construct (fun _ => (0:ℝ))
            (1 + (2:ℝ) ^ (-30 : ℤ)) 1).mass ≠ 1 + (2:ℝ) ^ (-30 : ℤ)) :=
  ⟨fun _ => ⟨0, 0, by norm_num, by norm_num, by norm_num, by norm_num⟩,
    construct_narrows_mass (fun _ => (0:ℝ)) 1
      (fun _ => ⟨0, 0, by norm_num, by norm_num, by norm_num, by norm_num⟩)⟩
